import Mathlib

/-!
Shallow embedding of `TimerInterval.cpp` (Timer Interrupt Interval
Measurement Tool).

Modelling conventions:
* `double` values are modelled as exact real numbers (`ℝ`);
* `int64_t` tick values, deltas and the frequency are modelled as `ℤ`;
* the `uint32_t` filter size is modelled as `ℕ`;
* the `throw std::runtime_error` path of `init_weights` is modelled with
  `Except String`;
* the raw tick deltas that `doMeasure` obtains from the clock around the
  five `Sleep(1)` calls are passed in as an input list (the clock and the
  sleep are external collaborators);
* the main sampling loop is modelled by explicit state passing over a
  finite schedule of reads of the `volatile bool g_bRunning` flag paired
  with the deltas measured in that iteration.
-/

namespace TimerInterval

/-- `static const size_t WINDOW_SIZE = 11;` -/
def WINDOW_SIZE : ℕ := 11

/-- `static const double PI = 3.1415926535897932384626433832795028842;` -/
noncomputable def PI : ℝ := 3.1415926535897932384626433832795028842

/-- `EXIT_SUCCESS` as returned by `tiimt_main`. -/
def EXIT_SUCCESS : ℤ := 0

/-! ## Sample Estimator (`doMeasure`) -/

/-- `doMeasure`: the five raw tick deltas `timeEnd - timeBeg` measured around
the five `Sleep(1)` calls are given as the input list `delay`; the code then
does `std::sort(delay.begin(), delay.end()); return delay[delay.size() / 2];`.
`std::sort` sorts ascending; any correct comparison sort yields the same list,
so it is modelled with `List.insertionSort (· ≤ ·)`. -/
def doMeasure (delay : List ℤ) : ℤ :=
  (List.insertionSort (· ≤ ·) delay).getD (delay.length / 2) 0

/-! ## Weight initialization (`init_weights`) -/

/-- `const double sigma = (((double(filterSize) / 2.0) - 1.0) / 3.0) + (1.0 / 3.0);` -/
noncomputable def sigma (n : ℕ) : ℝ := (((n : ℝ) / 2 - 1) / 3) + 1 / 3

/-- `const double c1 = 1.0 / (sigma * sqrt(2.0 * PI));` -/
noncomputable def c1 (n : ℕ) : ℝ := 1 / (sigma n * Real.sqrt (2 * PI))

/-- `const double c2 = 2.0 * pow(sigma, 2.0);` -/
noncomputable def c2 (n : ℕ) : ℝ := 2 * sigma n ^ 2

/-- Body of the first loop of `init_weights`:
`const int32_t x = int32_t(i) - int32_t(offset);`
`weights[i] = c1 * exp(-(pow(x, 2.0) / c2));`
where `offset = filterSize / 2` (integer division). -/
noncomputable def rawWeight (n i : ℕ) : ℝ :=
  c1 n * Real.exp (-(((i : ℝ) - ((n / 2 : ℕ) : ℝ)) ^ 2 / c2 n))

/-- `totalWeight`, accumulated over the first loop of `init_weights`. -/
noncomputable def totalWeight (n : ℕ) : ℝ :=
  ((List.range n).map (rawWeight n)).sum

/-- One entry after the second loop of `init_weights`:
`const double adjust = 1.0 / totalWeight; ... weights[i] *= adjust;`. -/
noncomputable def weight (n i : ℕ) : ℝ :=
  rawWeight n i * (1 / totalWeight n)

/-- `init_weights(filterSize)`: throws (modelled as `Except.error`) when
`(filterSize < 1) || ((filterSize % 2) != 1)`, otherwise returns the
normalized weight vector. -/
noncomputable def init_weights (n : ℕ) : Except String (List ℝ) :=
  if n < 1 ∨ n % 2 ≠ 1 then
    Except.error "Filter size must be a positive and odd value!"
  else
    Except.ok ((List.range n).map (weight n))

/-! ## Smoothing filter (`getResult`) -/

/-- The accumulation loop of `getResult`: walks the deque front (oldest) to
back (newest), pairing entry `k` with `weights[k]`. The case of more results
than weights reads `weights[k]` out of bounds in the C++ (undefined
behavior); it is unreachable under the loop invariant proved below. -/
noncomputable def weightedSum : List ℤ → List ℝ → ℝ
  | [], _ => 0
  | _ :: _, [] => 0
  | r :: rs, w :: ws => (r : ℝ) * w + weightedSum rs ws

/-- `getResult(results, frequency, weights)`:
`return (total / double(frequency)) * 1000.0;`. -/
noncomputable def getResult (results : List ℤ) (frequency : ℤ) (weights : List ℝ) : ℝ :=
  weightedSum results weights / (frequency : ℝ) * 1000

/-! ## Window management in `tiimt_main` -/

/-- `while(results.size() >= WINDOW_SIZE) { results.pop_front(); }` — each
round of the loop tests the size and pops the front element. -/
def evictLoop : List ℤ → List ℤ
  | [] => []
  | a :: l => if WINDOW_SIZE ≤ (a :: l).length then evictLoop l else a :: l

/-- One push into the sliding window, as performed by the body of the main
loop: evict from the front while at capacity, then
`results.push_back(doMeasure());`. -/
def push_sample (w : List ℤ) (x : ℤ) : List ℤ :=
  evictLoop w ++ [x]

/-! ## The sampling loop of `tiimt_main` -/

/-- The `SPINNER` string constant: slash, dash, backslash, pipe. -/
def SPINNER : List Char := ['/', '-', '\\', '|']

/-- One console output event of `tiimt_main`: either the overwritten
`"Current Timer Interval: %4.1f ms [%c]"` line with its value and spinner
character, or the final `"CTRL+C received: ..."` termination notice. -/
inductive OutputEvent
  | display (value : ℝ) (spin : Char)
  | termNotice

/-- State threaded through the `while(g_bRunning)` loop: the sample window
`results`, the `spinner` index, the number of `Sleep(1)` calls performed so
far, and the console output so far. -/
structure MainState where
  window : List ℤ
  spinner : ℕ
  sleeps : ℕ
  output : List OutputEvent

/-- One iteration of the body of the `while(g_bRunning)` loop: measure one
sample (`doMeasure`, performing one `Sleep(1)` per delta — five in the real
program), push it into the window, and when the window is now exactly full,
compute (`getResult`) and display the smoothed result and advance the
spinner. The `SetPriorityClass` calls do not affect the modelled state. -/
noncomputable def loopBody (frequency : ℤ) (weights : List ℝ) (st : MainState)
    (deltas : List ℤ) : MainState :=
  let w2 := push_sample st.window (doMeasure deltas)
  if w2.length = WINDOW_SIZE then
    { window := w2
      spinner := (st.spinner + 1) % 4
      sleeps := st.sleeps + deltas.length
      output := st.output ++
        [OutputEvent.display (getResult w2 frequency weights) (SPINNER.getD st.spinner ' ')] }
  else
    { st with window := w2, sleeps := st.sleeps + deltas.length }

/-- The `while(g_bRunning)` loop. Each schedule entry holds the value of the
volatile flag `g_bRunning` as read at the top of the loop, paired with the
tick deltas the clock yields during that iteration; the signal handler
(`ctrl_handler`, which only sets the flag to `false`) may flip the flag at
any moment, but the loop observes it solely at this top-of-loop read.
Returns the final state and the number of complete iterations executed. An
exhausted schedule also stops (the theorems below always provide a schedule
containing a `false` read). -/
noncomputable def samplingLoop (frequency : ℤ) (weights : List ℝ) :
    List (Bool × List ℤ) → MainState → MainState × ℕ
  | [], st => (st, 0)
  | (flag, deltas) :: rest, st =>
    if flag then
      let r := samplingLoop frequency weights rest (loopBody frequency weights st deltas)
      (r.1, r.2 + 1)
    else (st, 0)

/-- `tiimt_main`: initializes the weights via `init_weights(WINDOW_SIZE)`,
runs the sampling loop from an empty window, then prints the
`"CTRL+C received: Application will exit now..."` notice and returns
`EXIT_SUCCESS`. The `Except.error` branch models the `std::runtime_error`
escaping to the crash guard in `main` (no notice, no success code), which
cannot happen for `WINDOW_SIZE = 11`. -/
noncomputable def tiimt_main (frequency : ℤ) (schedule : List (Bool × List ℤ)) :
    Option (MainState × ℕ × ℤ) :=
  match init_weights WINDOW_SIZE with
  | Except.error _ => none
  | Except.ok weights =>
    let r := samplingLoop frequency weights schedule
      { window := [], spinner := 0, sleeps := 0, output := [] }
    some ({ r.1 with output := r.1.output ++ [OutputEvent.termNotice] }, r.2, EXIT_SUCCESS)

/-- The outcome of one concrete run of `tiimt_main` in which the very first
read of the shutdown flag is already `false`: no iteration executes, the
termination notice is printed and `EXIT_SUCCESS` is returned. -/
def exampleRun : MainState × ℕ × ℤ :=
  ({ window := [], spinner := 0, sleeps := 0, output := [OutputEvent.termNotice] },
    0, EXIT_SUCCESS)

/-! ## Helper lemmas about the weights -/

lemma sigma_eq (n : ℕ) : sigma n = (n : ℝ) / 6 := by
  simp only [sigma]; ring

lemma sigma_pos {n : ℕ} (hn : 0 < n) : 0 < sigma n := by
  rw [sigma_eq]
  have h : (0 : ℝ) < (n : ℝ) := by exact_mod_cast hn
  linarith

lemma PI_pos : 0 < PI := by norm_num [PI]

lemma c1_pos {n : ℕ} (hn : 0 < n) : 0 < c1 n := by
  have h1 : 0 < sigma n := sigma_pos hn
  have h2 : 0 < Real.sqrt (2 * PI) := Real.sqrt_pos.mpr (by have := PI_pos; linarith)
  exact one_div_pos.mpr (mul_pos h1 h2)

lemma c2_pos {n : ℕ} (hn : 0 < n) : 0 < c2 n := by
  have h1 : 0 < sigma n := sigma_pos hn
  simp only [c2]
  nlinarith

lemma rawWeight_pos {n : ℕ} (hn : 0 < n) (i : ℕ) : 0 < rawWeight n i :=
  mul_pos (c1_pos hn) (Real.exp_pos _)

lemma totalWeight_pos {n : ℕ} (hn : 0 < n) : 0 < totalWeight n := by
  apply List.sum_pos
  · intro x hx
    obtain ⟨i, _, rfl⟩ := List.mem_map.mp hx
    exact rawWeight_pos hn i
  · simp only [ne_eq, List.map_eq_nil_iff, List.range_eq_nil]
    omega

lemma weight_pos {n : ℕ} (hn : 0 < n) (i : ℕ) : 0 < weight n i :=
  mul_pos (rawWeight_pos hn i) (one_div_pos.mpr (totalWeight_pos hn))

lemma weights_sum_one {n : ℕ} (hn : 0 < n) :
    ((List.range n).map (weight n)).sum = 1 := by
  have htot : totalWeight n ≠ 0 := ne_of_gt (totalWeight_pos hn)
  have h1 : (List.range n).map (weight n)
      = (List.range n).map (fun i => rawWeight n i * (1 / totalWeight n)) := rfl
  rw [h1, List.sum_map_mul_right]
  have h2 : ((List.range n).map (rawWeight n)).sum = totalWeight n := rfl
  rw [h2]
  field_simp

lemma init_weights_ok {n : ℕ} (hodd : n % 2 = 1) :
    init_weights n = Except.ok ((List.range n).map (weight n)) := by
  have h1 : ¬ (n < 1 ∨ n % 2 ≠ 1) := by omega
  simp only [init_weights, if_neg h1]

lemma getD_map_range (f : ℕ → ℝ) {n i : ℕ} (h : i < n) :
    ((List.range n).map f).getD i 0 = f i := by
  have hlen : i < ((List.range n).map f).length := by simpa using h
  rw [List.getD_eq_getElem _ _ hlen]
  simp

/-! ## Claim theorems -/

/-- **C2.** For every odd positive `n`, `init_weights n` returns a weight
vector of length `n` whose entries are all nonnegative and whose entries sum
to `1` exactly — in the exact-real model the normalization is exact, so the
sum is within any floating-point tolerance (e.g. `1e-9`) of `1.0`. -/
theorem init_weights_length_nonneg_sum_one (n : ℕ) (hodd : Odd n) (hpos : 0 < n) :
    ∃ w : List ℝ, init_weights n = Except.ok w ∧ w.length = n ∧
      (∀ x ∈ w, 0 ≤ x) ∧ w.sum = 1 := by
  have h2 : n % 2 = 1 := Nat.odd_iff.mp hodd
  refine ⟨(List.range n).map (weight n), init_weights_ok h2, by simp, ?_,
    weights_sum_one hpos⟩
  intro x hx
  obtain ⟨i, _, rfl⟩ := List.mem_map.mp hx
  exact le_of_lt (weight_pos hpos i)

/-- Witness for the C2 theorem at the concrete size `n = 11`. -/
theorem init_weights_length_nonneg_sum_one_witness :
    ∃ w : List ℝ, init_weights 11 = Except.ok w ∧ w.length = 11 ∧
      (∀ x ∈ w, 0 ≤ x) ∧ w.sum = 1 :=
  init_weights_length_nonneg_sum_one 11 (by decide) (by decide)

/-- **C6.** `init_weights n` fails (the thrown `std::runtime_error`, modelled
as `Except.error`) exactly when `n` is even or `n ≤ 0`; the size is a
`uint32_t`, so `n ≤ 0` means `n = 0` (which is also even). For such `n` no
weight vector is returned. -/
theorem init_weights_error_iff (n : ℕ) :
    ((∃ e, init_weights n = Except.error e) ↔ (Even n ∨ n = 0)) ∧
    ((Even n ∨ n = 0) → ∀ w, init_weights n ≠ Except.ok w) := by
  have hsplit : (Even n ∨ n = 0) ↔ (n < 1 ∨ n % 2 ≠ 1) := by
    rw [Nat.even_iff]
    omega
  constructor
  · rw [hsplit]
    constructor
    · rintro ⟨e, he⟩
      by_contra hc
      simp only [init_weights, if_neg hc] at he
      exact Except.noConfusion he
    · intro h
      exact ⟨"Filter size must be a positive and odd value!",
        by simp only [init_weights, if_pos h]⟩
  · intro h w
    rw [hsplit] at h
    simp only [init_weights, if_pos h]
    exact fun hc => Except.noConfusion hc

/-- Witness for the C6 theorem at the concrete even size `n = 4`. -/
theorem init_weights_error_iff_witness :
    (∃ e, init_weights 4 = Except.error e) ∧ init_weights 4 ≠ Except.ok [] :=
  ⟨(init_weights_error_iff 4).1.mpr (Or.inl (by decide)),
   (init_weights_error_iff 4).2 (Or.inl (by decide)) []⟩

/-- For odd `n` the raw Gaussian weights are symmetric about the center
index `n / 2`. -/
lemma rawWeight_symm {n i : ℕ} (hodd : n % 2 = 1) (hi : i < n) :
    rawWeight n (n - 1 - i) = rawWeight n i := by
  have hle : i ≤ 2 * (n / 2) := by omega
  have hsub : n - 1 - i = 2 * (n / 2) - i := by omega
  have hcast : ((2 * (n / 2) - i : ℕ) : ℝ) = 2 * ((n / 2 : ℕ) : ℝ) - (i : ℝ) := by
    rw [Nat.cast_sub hle]
    push_cast
    ring
  have hsq : (((n - 1 - i : ℕ) : ℝ) - ((n / 2 : ℕ) : ℝ)) ^ 2
      = ((i : ℝ) - ((n / 2 : ℕ) : ℝ)) ^ 2 := by
    rw [hsub, hcast]
    ring
  simp only [rawWeight, hsq]

/-- For odd `n` the normalized weights are symmetric about the center. -/
lemma weight_symm {n i : ℕ} (hodd : n % 2 = 1) (hi : i < n) :
    weight n (n - 1 - i) = weight n i := by
  simp only [weight, rawWeight_symm hodd hi]

/-- **C5.** For every odd positive `n`: the standard deviation is
`sigma = ((n/2 - 1)/3) + 1/3` (real division, as computed by the source);
every returned weight is proportional — with one positive constant of
proportionality — to `exp(-(offset_from_center)^2 / (2*sigma^2))` where the
offset from the center index `n / 2` is `i - n/2`; consequently the vector is
symmetric, `w[i] = w[n-1-i]` for every valid `i`. -/
theorem init_weights_sigma_gaussian_symmetric (n : ℕ) (hodd : Odd n) (hpos : 0 < n) :
    sigma n = (((n : ℝ) / 2 - 1) / 3) + 1 / 3 ∧
    ∀ w, init_weights n = Except.ok w →
      (∃ c : ℝ, 0 < c ∧ ∀ i < n,
        w.getD i 0
          = c * Real.exp (-(((i : ℝ) - ((n / 2 : ℕ) : ℝ)) ^ 2 / (2 * sigma n ^ 2)))) ∧
      (∀ i < n, w.getD i 0 = w.getD (n - 1 - i) 0) := by
  have h2 : n % 2 = 1 := Nat.odd_iff.mp hodd
  refine ⟨rfl, ?_⟩
  intro w hw
  rw [init_weights_ok h2] at hw
  injection hw with hw2
  subst hw2
  constructor
  · refine ⟨c1 n * (1 / totalWeight n), mul_pos (c1_pos hpos)
      (one_div_pos.mpr (totalWeight_pos hpos)), ?_⟩
    intro i hi
    rw [getD_map_range _ hi]
    simp only [weight, rawWeight, c2]
    ring
  · intro i hi
    have hi2 : n - 1 - i < n := by omega
    rw [getD_map_range _ hi, getD_map_range _ hi2, weight_symm h2 hi]

/-- Witness for the C5 theorem at `n = 11`, checking the sigma formula and
the symmetry of the first and last weight. -/
theorem init_weights_sigma_gaussian_symmetric_witness :
    sigma 11 = (((11 : ℕ) : ℝ) / 2 - 1) / 3 + 1 / 3 ∧
    ((List.range 11).map (weight 11)).getD 0 0
      = ((List.range 11).map (weight 11)).getD (11 - 1 - 0) 0 :=
  ⟨(init_weights_sigma_gaussian_symmetric 11 (by decide) (by decide)).1,
    ((init_weights_sigma_gaussian_symmetric 11 (by decide) (by decide)).2 _
      (init_weights_ok (by decide))).2 0 (by decide)⟩

/-- The raw Gaussian weight is antitone in the squared offset from the
center. -/
lemma rawWeight_le {n : ℕ} (hn : 0 < n) {i j : ℕ}
    (h : ((j : ℝ) - ((n / 2 : ℕ) : ℝ)) ^ 2 ≤ ((i : ℝ) - ((n / 2 : ℕ) : ℝ)) ^ 2) :
    rawWeight n i ≤ rawWeight n j := by
  have hc2 : 0 < c2 n := c2_pos hn
  simp only [rawWeight]
  apply mul_le_mul_of_nonneg_left _ (le_of_lt (c1_pos hn))
  apply Real.exp_le_exp.mpr
  apply neg_le_neg
  exact (div_le_div_iff_of_pos_right hc2).mpr h

/-- The normalized weight is antitone in the squared offset from the
center. -/
lemma weight_le {n : ℕ} (hn : 0 < n) {i j : ℕ}
    (h : ((j : ℝ) - ((n / 2 : ℕ) : ℝ)) ^ 2 ≤ ((i : ℝ) - ((n / 2 : ℕ) : ℝ)) ^ 2) :
    weight n i ≤ weight n j := by
  simp only [weight]
  exact mul_le_mul_of_nonneg_right (rawWeight_le hn h)
    (le_of_lt (one_div_pos.mpr (totalWeight_pos hn)))

/-- **C10.** For every odd positive `n`, every entry of the weight vector is
strictly positive, and the vector is unimodal: the maximum is attained at
the center index `n / 2`, the entries are non-increasing from the center
towards the newest end, and non-decreasing from the oldest end towards the
center. -/
theorem init_weights_pos_unimodal (n : ℕ) (hodd : Odd n) (hpos : 0 < n) :
    ∀ w, init_weights n = Except.ok w →
      (∀ i < n, 0 < w.getD i 0) ∧
      (∀ i < n, w.getD i 0 ≤ w.getD (n / 2) 0) ∧
      (∀ i j, n / 2 ≤ i → i ≤ j → j < n → w.getD j 0 ≤ w.getD i 0) ∧
      (∀ i j, i ≤ j → j ≤ n / 2 → w.getD i 0 ≤ w.getD j 0) := by
  have h2 : n % 2 = 1 := Nat.odd_iff.mp hodd
  intro w hw
  rw [init_weights_ok h2] at hw
  injection hw with hw2
  subst hw2
  have hmid : n / 2 < n := by omega
  refine ⟨?_, ?_, ?_, ?_⟩
  · intro i hi
    rw [getD_map_range _ hi]
    exact weight_pos hpos i
  · intro i hi
    rw [getD_map_range _ hi, getD_map_range _ hmid]
    apply weight_le hpos
    simp only [sub_self]
    simpa using sq_nonneg ((i : ℝ) - ((n / 2 : ℕ) : ℝ))
  · intro i j hci hij hj
    have hi : i < n := lt_of_le_of_lt hij hj
    rw [getD_map_range _ hi, getD_map_range _ hj]
    apply weight_le hpos
    have hc : ((n / 2 : ℕ) : ℝ) ≤ (i : ℝ) := Nat.cast_le.mpr hci
    have hij2 : (i : ℝ) ≤ (j : ℝ) := Nat.cast_le.mpr hij
    nlinarith
  · intro i j hij hjc
    have hj : j < n := lt_of_le_of_lt hjc hmid
    have hi : i < n := lt_of_le_of_lt hij hj
    rw [getD_map_range _ hi, getD_map_range _ hj]
    apply weight_le hpos
    have hc : (j : ℝ) ≤ ((n / 2 : ℕ) : ℝ) := Nat.cast_le.mpr hjc
    have hij2 : (i : ℝ) ≤ (j : ℝ) := Nat.cast_le.mpr hij
    nlinarith

/-- Witness for the C10 theorem at `n = 11`: strict positivity of the first
weight and maximality of the central weight over the first. -/
theorem init_weights_pos_unimodal_witness :
    0 < ((List.range 11).map (weight 11)).getD 0 0 ∧
    ((List.range 11).map (weight 11)).getD 0 0
      ≤ ((List.range 11).map (weight 11)).getD (11 / 2) 0 :=
  ⟨(init_weights_pos_unimodal 11 (by decide) (by decide) _
      (init_weights_ok (by decide))).1 0 (by decide),
    (init_weights_pos_unimodal 11 (by decide) (by decide) _
      (init_weights_ok (by decide))).2.1 0 (by decide)⟩

/-- The accumulation loop of `getResult` computes the positional weighted
sum when the two sequences have equal length. -/
lemma weightedSum_eq_sum : ∀ (rs : List ℤ) (ws : List ℝ), rs.length = ws.length →
    weightedSum rs ws = ∑ i in Finset.range rs.length, (rs.getD i 0 : ℝ) * ws.getD i 0
  | [], _, _ => by simp [weightedSum]
  | r :: rs, [], h => by simp at h
  | r :: rs, w :: ws, h => by
    simp only [weightedSum, List.length_cons]
    rw [Finset.sum_range_succ']
    simp only [List.getD_cons_succ, List.getD_cons_zero]
    rw [← weightedSum_eq_sum rs ws (by simpa using h)]
    ring

/-- **C1.** For every window whose length equals the weight-vector length
and every frequency, `getResult` returns the sum over positions — oldest to
newest — of the delay at position `i` times the weight at position `i`,
divided by the frequency and multiplied by `1000`. -/
theorem getResult_weighted_sum (window : List ℤ) (weights : List ℝ) (frequency : ℤ)
    (h : window.length = weights.length) :
    getResult window frequency weights
      = (∑ i in Finset.range window.length,
          (window.getD i 0 : ℝ) * weights.getD i 0) / (frequency : ℝ) * 1000 := by
  rw [getResult, weightedSum_eq_sum window weights h]

/-- Witness for the C1 theorem on a concrete two-element window. -/
theorem getResult_weighted_sum_witness :
    getResult [2, 3] 4 [(1 : ℝ) / 2, 1 / 4]
      = (∑ i in Finset.range (([2, 3] : List ℤ)).length,
          ((([2, 3] : List ℤ).getD i 0 : ℤ) : ℝ) * [(1 : ℝ) / 2, 1 / 4].getD i 0)
          / ((4 : ℤ) : ℝ) * 1000 :=
  getResult_weighted_sum [2, 3] [(1 : ℝ) / 2, 1 / 4] 4 rfl

/-- A window of all-equal values paired positionally with any weights gives
the common value times the weight sum. -/
lemma weightedSum_replicate (v : ℤ) : ∀ ws : List ℝ,
    weightedSum (List.replicate ws.length v) ws = (v : ℝ) * ws.sum
  | [] => by simp [weightedSum]
  | w :: ws => by
    simp only [List.length_cons, List.replicate_succ, weightedSum, List.sum_cons]
    rw [weightedSum_replicate v ws]
    ring

/-- **C7.** `getResult` on a full window whose entries all equal `v`, with
any positive frequency and any weight vector summing to `1`, returns
`(v / frequency) * 1000` regardless of the weight distribution; in
particular with frequency `1000000000` and a full 11-entry window of delays
all equal to `1000000`, it returns exactly `1.0` ms (hence within any
tolerance). -/
theorem getResult_const_window :
    (∀ (v frequency : ℤ) (weights : List ℝ), 0 < frequency → weights.sum = 1 →
      getResult (List.replicate weights.length v) frequency weights
        = (v : ℝ) / (frequency : ℝ) * 1000) ∧
    (∀ w, init_weights WINDOW_SIZE = Except.ok w →
      getResult (List.replicate WINDOW_SIZE 1000000) 1000000000 w = 1) := by
  constructor
  · intro v frequency weights hf hsum
    rw [getResult, weightedSum_replicate, hsum, mul_one]
  · intro w hw
    rw [init_weights_ok (show WINDOW_SIZE % 2 = 1 by decide)] at hw
    injection hw with hw2
    subst hw2
    have hlen : ((List.range WINDOW_SIZE).map (weight WINDOW_SIZE)).length = WINDOW_SIZE := by
      simp
    have hrep : List.replicate WINDOW_SIZE (1000000 : ℤ)
        = List.replicate (((List.range WINDOW_SIZE).map (weight WINDOW_SIZE)).length)
            1000000 := by
      rw [hlen]
    rw [getResult, hrep, weightedSum_replicate,
      weights_sum_one (show 0 < WINDOW_SIZE by decide), mul_one]
    norm_num

/-- Witness for the C7 theorem: a one-element weight vector summing to one,
and the end-to-end 1 ms instance with the real weight vector. -/
theorem getResult_const_window_witness :
    getResult (List.replicate ([(1 : ℝ)]).length 3) 2 [(1 : ℝ)]
      = ((3 : ℤ) : ℝ) / ((2 : ℤ) : ℝ) * 1000 ∧
    getResult (List.replicate WINDOW_SIZE 1000000) 1000000000
      ((List.range WINDOW_SIZE).map (weight WINDOW_SIZE)) = 1 :=
  ⟨getResult_const_window.1 3 2 [(1 : ℝ)] (by decide) (by simp),
    getResult_const_window.2 _ (init_weights_ok (by decide))⟩

/-- **C3.** The Sample Estimator collects exactly five raw tick deltas,
sorts them ascending and returns the middle element: for any list of five
deltas and any ascending-sorted rearrangement `s` of it, `doMeasure` returns
`s[2]`; in particular on the raw deltas `[5, 1, 9, 3, 7]` it returns the
median `5`. -/
theorem doMeasure_median :
    (∀ (l s : List ℤ), l.length = 5 → s.Perm l → s.Sorted (· ≤ ·) →
      doMeasure l = s.getD 2 0) ∧
    doMeasure [5, 1, 9, 3, 7] = 5 := by
  constructor
  · intro l s hl hperm hsort
    have h1 : List.insertionSort (· ≤ ·) l = s :=
      List.eq_of_perm_of_sorted ((List.perm_insertionSort _ l).trans hperm.symm)
        (List.sorted_insertionSort _ l) hsort
    rw [doMeasure, h1, hl]
  · decide

/-- Witness for the C3 theorem on the concrete deltas `[5, 1, 9, 3, 7]` with
their sorted rearrangement `[1, 3, 5, 7, 9]`. -/
theorem doMeasure_median_witness :
    doMeasure [5, 1, 9, 3, 7] = ([1, 3, 5, 7, 9] : List ℤ).getD 2 0 :=
  doMeasure_median.1 [5, 1, 9, 3, 7] [1, 3, 5, 7, 9] rfl (by decide) (by decide)

/-- Closed form of the front-eviction loop: it drops exactly enough oldest
entries to leave at most `WINDOW_SIZE - 1` of them. -/
lemma evictLoop_eq_drop : ∀ w : List ℤ, evictLoop w = w.drop (w.length + 1 - WINDOW_SIZE)
  | [] => rfl
  | a :: l => by
    simp only [evictLoop, List.length_cons]
    by_cases h : WINDOW_SIZE ≤ l.length + 1
    · rw [if_pos h, evictLoop_eq_drop l]
      have h2 : l.length + 1 + 1 - WINDOW_SIZE = (l.length + 1 - WINDOW_SIZE) + 1 := by
        omega
      rw [h2, List.drop_succ_cons]
    · rw [if_neg h]
      have h2 : l.length + 1 + 1 - WINDOW_SIZE = 0 := by
        simp only [WINDOW_SIZE] at *
        omega
      rw [h2, List.drop_zero]

/-- The window never exceeds the capacity after a push. -/
lemma push_sample_length (w : List ℤ) (x : ℤ) :
    (push_sample w x).length = min (w.length + 1) WINDOW_SIZE := by
  simp only [push_sample, List.length_append, List.length_singleton,
    evictLoop_eq_drop, List.length_drop]
  simp only [WINDOW_SIZE]
  omega

/-- Starting from a window within capacity, a sequence of pushes keeps
exactly the newest `WINDOW_SIZE` entries in order. -/
lemma foldl_push_sample : ∀ (xs : List ℤ) (w : List ℤ), w.length ≤ WINDOW_SIZE →
    List.foldl push_sample w xs = (w ++ xs).drop (w.length + xs.length - WINDOW_SIZE)
  | [], w, hw => by
    simp only [List.foldl_nil, List.length_nil, Nat.add_zero, List.append_nil]
    have h2 : w.length - WINDOW_SIZE = 0 := by omega
    rw [h2, List.drop_zero]
  | x :: xs, w, hw => by
    simp only [List.foldl_cons]
    have hlen : (push_sample w x).length ≤ WINDOW_SIZE := by
      rw [push_sample_length]
      omega
    rw [foldl_push_sample xs (push_sample w x) hlen]
    by_cases h : w.length + 1 ≤ WINDOW_SIZE
    · have he : evictLoop w = w := by
        rw [evictLoop_eq_drop]
        have h2 : w.length + 1 - WINDOW_SIZE = 0 := by omega
        rw [h2, List.drop_zero]
      simp only [push_sample, he]
      have hassoc : (w ++ [x]) ++ xs = w ++ x :: xs := by simp
      rw [hassoc]
      have hidx : (w ++ [x]).length + xs.length - WINDOW_SIZE
          = w.length + (x :: xs).length - WINDOW_SIZE := by
        simp only [List.length_append, List.length_singleton, List.length_cons,
          List.length_nil]
        omega
      rw [hidx]
    · have hw11 : w.length = WINDOW_SIZE := by omega
      cases w with
      | nil => simp [WINDOW_SIZE] at hw11
      | cons a t =>
        have he : evictLoop (a :: t) = t := by
          rw [evictLoop_eq_drop]
          have h2 : (a :: t).length + 1 - WINDOW_SIZE = 1 := by
            simp only [List.length_cons] at hw11 ⊢
            omega
          rw [h2, List.drop_one, List.tail_cons]
        simp only [push_sample, he]
        have hassoc : (t ++ [x]) ++ xs = t ++ x :: xs := by simp
        rw [hassoc]
        have hL : (t ++ [x]).length = t.length + 1 := by simp
        have hlen2 : (a :: t).length + (x :: xs).length - WINDOW_SIZE
            = (t.length + 1 + xs.length - WINDOW_SIZE) + 1 := by
          simp only [List.length_cons] at hw11 ⊢
          simp only [WINDOW_SIZE] at *
          omega
        rw [hL, hlen2]
        rw [show ((a :: t) ++ x :: xs) = a :: (t ++ x :: xs) from rfl, List.drop_succ_cons]

/-- **C4.** The sample window is a strict FIFO of capacity `WINDOW_SIZE = 11`
whose size never exceeds the capacity after any push; a push into a full
window first evicts the oldest entry and then appends the new delay at the
newest position; and pushing `capacity + 1` items into an initially empty
window leaves exactly the last `capacity` items in their original relative
order. -/
theorem push_sample_fifo :
    (∀ (w : List ℤ) (x : ℤ), (push_sample w x).length ≤ WINDOW_SIZE) ∧
    (∀ (w : List ℤ) (x : ℤ), w.length = WINDOW_SIZE → push_sample w x = w.tail ++ [x]) ∧
    (∀ xs : List ℤ, xs.length = WINDOW_SIZE + 1 →
      List.foldl push_sample [] xs = xs.tail) := by
  refine ⟨?_, ?_, ?_⟩
  · intro w x
    rw [push_sample_length]
    omega
  · intro w x hw
    simp only [push_sample, evictLoop_eq_drop, hw]
    rw [show WINDOW_SIZE + 1 - WINDOW_SIZE = 1 by omega, List.drop_one]
  · intro xs hxs
    rw [foldl_push_sample xs [] (by simp)]
    simp only [List.nil_append, List.length_nil, Nat.zero_add, hxs]
    rw [show WINDOW_SIZE + 1 - WINDOW_SIZE = 1 by omega, List.drop_one]

/-- Witness for the C4 theorem: a push into a concrete full window, and
twelve pushes from the empty window. -/
theorem push_sample_fifo_witness :
    push_sample [0, 1, 2, 3, 4, 5, 6, 7, 8, 9, 10] 11
      = ([0, 1, 2, 3, 4, 5, 6, 7, 8, 9, 10] : List ℤ).tail ++ [11] ∧
    List.foldl push_sample [] [0, 1, 2, 3, 4, 5, 6, 7, 8, 9, 10, 11]
      = ([0, 1, 2, 3, 4, 5, 6, 7, 8, 9, 10, 11] : List ℤ).tail :=
  ⟨push_sample_fifo.2.1 _ 11 rfl, push_sample_fifo.2.2 _ rfl⟩

/-- **C8.** In every reachable iteration of the sampling loop (the window is
whatever a sequence of pushes from the empty deque produced) the window
stays within capacity, and `getResult` is invoked — a new display line is
emitted — only when the window after the push has length exactly
`WINDOW_SIZE`, never on a shorter window; that length also equals the weight
vector's length, so the positional lookup `weights[k]` (for `k` below the
window length) inside `getResult` never goes out of bounds. -/
theorem getResult_only_on_full_window (weights : List ℝ)
    (hw : init_weights WINDOW_SIZE = Except.ok weights) (samples : List ℤ) :
    (List.foldl push_sample [] samples).length ≤ WINDOW_SIZE ∧
    ∀ (frequency : ℤ) (st : MainState) (deltas : List ℤ),
      st.window = List.foldl push_sample [] samples →
      ∀ v c, OutputEvent.display v c ∈ (loopBody frequency weights st deltas).output →
        OutputEvent.display v c ∈ st.output ∨
        (v = getResult (push_sample st.window (doMeasure deltas)) frequency weights ∧
          (push_sample st.window (doMeasure deltas)).length = WINDOW_SIZE ∧
          (push_sample st.window (doMeasure deltas)).length = weights.length) := by
  have hwlen : weights.length = WINDOW_SIZE := by
    rw [init_weights_ok (show WINDOW_SIZE % 2 = 1 by decide)] at hw
    injection hw with h
    rw [← h]
    simp
  constructor
  · rw [foldl_push_sample samples [] (by simp)]
    simp only [List.nil_append, List.length_nil, Nat.zero_add, List.length_drop]
    omega
  · intro frequency st deltas hst v c hmem
    simp only [loopBody] at hmem
    by_cases h : (push_sample st.window (doMeasure deltas)).length = WINDOW_SIZE
    · rw [if_pos h] at hmem
      simp only [List.mem_append, List.mem_singleton] at hmem
      rcases hmem with hmem | hmem
      · exact Or.inl hmem
      · injection hmem with h1 h2
        exact Or.inr ⟨h1, h, h.trans hwlen.symm⟩
    · rw [if_neg h] at hmem
      exact Or.inl hmem

/-- Witness for the C8 theorem: the reachable-window capacity bound after
three concrete pushes. -/
theorem getResult_only_on_full_window_witness :
    (List.foldl push_sample [] [1, 2, 3]).length ≤ WINDOW_SIZE :=
  (getResult_only_on_full_window _ (init_weights_ok (by decide)) [1, 2, 3]).1

/-- One loop iteration performs exactly one complete measurement: one
`Sleep(1)` per recorded delta. -/
lemma loopBody_sleeps (frequency : ℤ) (weights : List ℝ) (st : MainState)
    (deltas : List ℤ) :
    (loopBody frequency weights st deltas).sleeps = st.sleeps + deltas.length := by
  simp only [loopBody]
  split <;> rfl

/-- Sleeps accumulate over the iterations of the loop. -/
lemma foldl_loopBody_sleeps (frequency : ℤ) (weights : List ℝ) :
    ∀ (iters : List (List ℤ)) (st : MainState),
      (List.foldl (loopBody frequency weights) st iters).sleeps
        = st.sleeps + (iters.map List.length).sum
  | [], st => by simp
  | d :: iters, st => by
    simp only [List.foldl_cons, List.map_cons, List.sum_cons]
    rw [foldl_loopBody_sleeps frequency weights iters _, loopBody_sleeps]
    omega

/-- A schedule of `k` `true` flag reads followed by a `false` read runs the
loop body exactly `k` times, as a fold, and exits at the `false` read. -/
lemma samplingLoop_true_then_false (frequency : ℤ) (weights : List ℝ) :
    ∀ (iters : List (List ℤ)) (rest : List (Bool × List ℤ)) (st : MainState),
      samplingLoop frequency weights
          (iters.map (fun d => (true, d)) ++ (false, []) :: rest) st
        = (List.foldl (loopBody frequency weights) st iters, iters.length)
  | [], rest, st => by simp [samplingLoop]
  | d :: iters, rest, st => by
    simp only [List.map_cons, List.cons_append, samplingLoop, if_true, List.append_eq]
    rw [samplingLoop_true_then_false frequency weights iters rest
      (loopBody frequency weights st d)]
    simp

/-- Lists of five-delta measurements contribute five sleeps each. -/
lemma sum_map_length_five {l : List (List ℤ)} (h : ∀ d ∈ l, d.length = 5) :
    (l.map List.length).sum = 5 * l.length := by
  induction l with
  | nil => simp
  | cons d l ih =>
    simp only [List.map_cons, List.sum_cons, List.length_cons, h d (by simp)]
    rw [ih (fun x hx => h x (by simp [hx]))]
    ring

/-- **C9.** When the shutdown flag is set asynchronously by the signal
handler — modelled as the top-of-loop read of `g_bRunning` turning `false`
after `k` `true` reads, the only point at which the loop observes the flag —
the loop executes exactly those `k` flagged iterations, each one a complete
sampling cycle of five `Sleep(1)` calls (`5 * k` sleeps in total, never
stopping mid-sample), then exits; `tiimt_main` prints the termination notice
as its final output and returns `EXIT_SUCCESS`. -/
theorem shutdown_clean_exit (frequency : ℤ) (iters : List (List ℤ))
    (rest : List (Bool × List ℤ)) (h5 : ∀ d ∈ iters, d.length = 5) :
    ∀ r, tiimt_main frequency
        (iters.map (fun d => (true, d)) ++ (false, []) :: rest) = some r →
      r.2.1 = iters.length ∧ r.2.2 = EXIT_SUCCESS ∧
      r.1.sleeps = 5 * iters.length ∧
      r.1.output.getLast? = some OutputEvent.termNotice := by
  intro r hr
  simp only [tiimt_main, init_weights_ok (show WINDOW_SIZE % 2 = 1 by decide),
    samplingLoop_true_then_false, Option.some.injEq] at hr
  subst hr
  refine ⟨rfl, rfl, ?_, ?_⟩
  · simp only [foldl_loopBody_sleeps]
    rw [sum_map_length_five h5]
    omega
  · simp only [List.getLast?_concat]

/-- Witness for the C9 theorem: the flag is already `false` at the first
read, so zero iterations execute. -/
theorem shutdown_clean_exit_witness :
    exampleRun.2.1 = ([] : List (List ℤ)).length ∧
    exampleRun.2.2 = EXIT_SUCCESS ∧
    exampleRun.1.sleeps = 5 * ([] : List (List ℤ)).length ∧
    exampleRun.1.output.getLast? = some OutputEvent.termNotice := by
  apply shutdown_clean_exit 1 [] [] (by simp)
  simp only [tiimt_main, init_weights_ok (show WINDOW_SIZE % 2 = 1 by decide),
    samplingLoop]
  rfl

end TimerInterval
